import Mathlib

/-!
Verification of the HWPX round-trip core (hwpx2org): the AsciiDoc table codec
(`asciidoc_parser.py`), the span reconstructor, heading codec and document tree
builder (`hwpx_to_org.py`), and the heading encoder and binary ZIP patcher
(`org_to_hwpx.py`).

Python strings are embedded as `List Char`; `bytes` as `List Nat` (each < 256).
Python regular expressions used by the code are straight-line enough that each
one is determinised into an executable matcher; where a regex quantifier is
greedy or lazy, the matcher follows the backtracking semantics, which for these
patterns reduces to maximal (or first-occurrence) munch because the character
class of the quantified part is disjoint from the literal that follows it.
-/

abbrev PyStr := List Char

/-- Python whitespace (`str.isspace()`): the set `str.strip()` removes and the
Unicode-aware regex `\s` matches — ASCII `\t \n \v \f \r`, the information
separators U+001C–U+001F, the space, NEL U+0085, NBSP U+00A0, U+1680, the
typographic spaces U+2000–U+200A, the line/paragraph separators U+2028/U+2029,
U+202F, U+205F and the ideographic space U+3000. -/
def pyIsSpace (c : Char) : Bool :=
  (0x09 ≤ c.toNat && c.toNat ≤ 0x0D) || c.toNat == 0x20 ||
  (0x1C ≤ c.toNat && c.toNat ≤ 0x1F) || c.toNat == 0x85 || c.toNat == 0xA0 ||
  c.toNat == 0x1680 || (0x2000 ≤ c.toNat && c.toNat ≤ 0x200A) ||
  c.toNat == 0x2028 || c.toNat == 0x2029 || c.toNat == 0x202F ||
  c.toNat == 0x205F || c.toNat == 0x3000

/-- Python `str.strip()`. -/
def pyStrip (s : PyStr) : PyStr :=
  ((s.dropWhile pyIsSpace).reverse.dropWhile pyIsSpace).reverse

/-- Python `str.split(sep)` for a one-character separator (keeps empty parts). -/
def splitOnChar (sep : Char) : PyStr → List PyStr
  | [] => [[]]
  | c :: rest =>
    if c == sep then [] :: splitOnChar sep rest
    else
      match splitOnChar sep rest with
      | [] => [[c]]
      | l :: ls => (c :: l) :: ls

/-- Python `int()` on a digit string. -/
def digitsToNat (ds : PyStr) : Nat :=
  ds.foldl (fun n c => n * 10 + (c.toNat - 48)) 0

/-- Python `str.isdigit()` (ASCII digits). -/
def pyIsDigitStr (s : PyStr) : Bool :=
  !s.isEmpty && s.all Char.isDigit

/-- The tail regex `(.*)$` (no re.MULTILINE, `.` does not cross a newline, `$`
also matches just before one final trailing newline).  Returns the captured
group when the regex matches. -/
def matchRestOfLine (text : PyStr) : Option PyStr :=
  if text.contains '\n' then
    if text.getLast? == some '\n' && !(text.dropLast.contains '\n') then some text.dropLast
    else none
  else some text

/-! ## asciidoc_parser.py -/

/-- `AsciiDocCell` dataclass. -/
structure AsciiDocCell where
  text : PyStr := []
  col_span : Nat := 1
  row_span : Nat := 1
deriving DecidableEq, Repr

/-- `AsciiDocTable` dataclass. -/
structure AsciiDocTable where
  rows : List (List AsciiDocCell) := []
  col_count : Nat := 0
  col_widths : List Nat := []
deriving DecidableEq, Repr

/-- `CELL_PATTERN = r'^(?:(\d+))?(?:\.(\d+))?\+\|(.*)$'`.  Groups are returned
as `(col_span_str, row_span_str, text)`.  Determinisation: `\d+` is greedy and
the next literal is `.` or `+`, never a digit, so each digit group, when it can
participate at all, is the maximal digit run. -/
def matchCellPattern (s : PyStr) : Option (Option Nat × Option Nat × PyStr) :=
  let (d1, r1) := s.span Char.isDigit
  let g1 : Option Nat := if d1.isEmpty then none else some (digitsToNat d1)
  match r1 with
  | '.' :: r2 =>
    let (d2, r3) := r2.span Char.isDigit
    if d2.isEmpty then none
    else
      match r3 with
      | '+' :: '|' :: t => (matchRestOfLine t).map (fun text => (g1, some (digitsToNat d2), text))
      | _ => none
  | '+' :: '|' :: t => (matchRestOfLine t).map (fun text => (g1, none, text))
  | _ => none

/-- `SIMPLE_CELL_PATTERN = r'^\|(.*)$'`. -/
def matchSimpleCell (s : PyStr) : Option PyStr :=
  match s with
  | '|' :: t => matchRestOfLine t
  | _ => none

/-- One step of Python `str.replace("\\" + c, c)` (left-to-right,
non-overlapping). -/
def replaceEsc (c : Char) : PyStr → PyStr
  | [] => []
  | [a] => [a]
  | a :: b :: rest =>
    if a == '\\' && b == c then c :: replaceEsc c rest
    else a :: replaceEsc c (b :: rest)

def backquoteChar : Char := Char.ofNat 96

/-- `unescape_asciidoc`: unescape `\|`, `\*`, `\_`, the backquote escape and
`\#`, in that order. -/
def unescape_asciidoc (text : PyStr) : PyStr :=
  replaceEsc '#' (replaceEsc backquoteChar (replaceEsc '_' (replaceEsc '*' (replaceEsc '|' text))))

/-- `parse_asciidoc_cell`. -/
def parse_asciidoc_cell (cellStr : PyStr) : AsciiDocCell :=
  let s := pyStrip cellStr
  match matchCellPattern s with
  | some (g1, g2, text) =>
    { text := unescape_asciidoc (pyStrip text), col_span := g1.getD 1, row_span := g2.getD 1 }
  | none =>
    match matchSimpleCell s with
    | some text => { text := unescape_asciidoc (pyStrip text) }
    | none => { text := unescape_asciidoc (pyStrip s) }

/-- `split_cells` (one line = one cell). -/
def split_cells (line : PyStr) : List PyStr :=
  let l := pyStrip line
  if l.isEmpty then [] else [l]

/-- The search for `\[cols="([^"]+)"\]` inside a line (`re.search` tries every
start position left to right; `[^"]+` is the maximal run of non-quote
characters and must be followed by `"]`). -/
def findColsSpec : PyStr → Option PyStr
  | [] => none
  | s@(_ :: rest) =>
    (if ("[cols=\"".toList).isPrefixOf s then
      let (content, r) := (s.drop 7).span (fun c => c != '"')
      match r with
      | '"' :: ']' :: _ => if content.isEmpty then none else some content
      | _ => none
    else none).orElse (fun _ => findColsSpec rest)

/-- `[int(c) if c.isdigit() else 1 for c in cols_str.split(",")]`. -/
def colWidthsOf (content : PyStr) : List Nat :=
  (splitOnChar ',' content).map (fun c => if pyIsDigitStr c then digitsToNat c else 1)

def tableCloseMarker : PyStr := ['|', '=', '=', '=']

/-- The line loop of `parse_asciidoc_table`.  The close marker inside a table
appends the pending row and breaks (remaining lines are discarded); a pending
row left when the lines run out is discarded, as in the source. -/
def parseTableLines : List PyStr → Bool → List AsciiDocCell → AsciiDocTable → AsciiDocTable
  | [], _, _, table => table
  | l :: rest, inTable, currentRow, table =>
    let line := pyStrip l
    if line == tableCloseMarker then
      if inTable then
        if currentRow.isEmpty then table
        else { table with rows := table.rows ++ [currentRow] }
      else parseTableLines rest true currentRow table
    else if ("[cols=".toList).isPrefixOf line then
      match findColsSpec line with
      | some content =>
        let ws := colWidthsOf content
        parseTableLines rest inTable currentRow { table with col_widths := ws, col_count := ws.length }
      | none => parseTableLines rest inTable currentRow table
    else if !inTable then parseTableLines rest inTable currentRow table
    else if line.isEmpty then
      if currentRow.isEmpty then parseTableLines rest inTable currentRow table
      else parseTableLines rest inTable [] { table with rows := table.rows ++ [currentRow] }
    else if line.headD ' ' == '|' || (line.headD ' ').isDigit then
      let newRow := (split_cells line).foldl
        (fun row c => if c.isEmpty then row else row ++ [parse_asciidoc_cell c]) currentRow
      parseTableLines rest inTable newRow table
    else parseTableLines rest inTable currentRow table

/-- `parse_asciidoc_table`. -/
def parse_asciidoc_table (tableText : PyStr) : AsciiDocTable :=
  let lines := splitOnChar '\n' (pyStrip tableText)
  let table := parseTableLines lines false [] {}
  if table.col_count == 0 && !table.rows.isEmpty then
    { table with col_count := ((table.rows.headD []).map (·.col_span)).sum }
  else table

/-! ## hwpx_to_org.py : data model and span reconstruction -/

/-- `TableCell` dataclass.  Spans are `Int`: the Python ints can go to zero or
negative on ill-formed address lists. -/
structure TableCell where
  text : PyStr := []
  col_span : Int := 1
  row_span : Int := 1
  col_addr : Nat := 0
  row_addr : Nat := 0
deriving DecidableEq, Repr

/-- `Table` dataclass. -/
structure Table where
  cells : List TableCell := []
  col_count : Nat := 0
  row_count : Nat := 0
  title : PyStr := []
  is_guide : Bool := false
deriving DecidableEq, Repr

/-- `max(c.col_addr for c in table.cells)` (cells nonempty where used). -/
def maxColAddr (cells : List TableCell) : Nat :=
  (cells.map (·.col_addr)).foldl Nat.max 0

def maxRowAddr (cells : List TableCell) : Nat :=
  (cells.map (·.row_addr)).foldl Nat.max 0

/-- The sort key `(c.row_addr, c.col_addr)`. -/
def cellKey (c : TableCell) : Nat × Nat := (c.row_addr, c.col_addr)

def keyLtB (a b : Nat × Nat) : Bool :=
  a.1 < b.1 || (a.1 == b.1 && a.2 < b.2)

/-- Stable insertion for `table.cells.sort(key=...)`: a later element goes
after all elements whose key is not greater, as Python's stable sort does. -/
def insertCell (c : TableCell) : List TableCell → List TableCell
  | [] => [c]
  | d :: rest => if keyLtB (cellKey c) (cellKey d) then c :: d :: rest else d :: insertCell c rest

def sortCells (cs : List TableCell) : List TableCell :=
  cs.foldl (fun acc c => insertCell c acc) []

/-- The colspan pass of `calculate_spans`.  The source groups the sorted list by
`row_addr` into a dict (member order = list order) and, per group, gives each
cell the gap to the next group member, or `col_count - col_addr` for the last.
On the (row,col)-sorted list the next group member after an occurrence is the
first later element with the same `row_addr`, which is what this recursion
reads off positionally. -/
def assignColSpans (colCnt : Nat) : List TableCell → List TableCell
  | [] => []
  | c :: rest =>
    (match rest.find? (fun d => d.row_addr == c.row_addr) with
     | some d => { c with col_span := (d.col_addr : Int) - (c.col_addr : Int) }
     | none => { c with col_span := (colCnt : Int) - (c.col_addr : Int) }) :: assignColSpans colCnt rest

/-- The rowspan pass of `calculate_spans`, symmetric to the colspan pass: the
column groups of the (row,col)-sorted list are already sorted by `row_addr`, so
the dict grouping plus per-group sort reduces to the same positional reading. -/
def assignRowSpans (rowCnt : Nat) : List TableCell → List TableCell
  | [] => []
  | c :: rest =>
    (match rest.find? (fun d => d.col_addr == c.col_addr) with
     | some d => { c with row_span := (d.row_addr : Int) - (c.row_addr : Int) }
     | none => { c with row_span := (rowCnt : Int) - (c.row_addr : Int) }) :: assignRowSpans rowCnt rest

/-- The effective column count of `calculate_spans`: authoritative metadata
when nonzero, otherwise `max(col_addr) + 1`. -/
def effColCount (t : Table) : Nat :=
  if t.col_count == 0 || t.row_count == 0 then
    (if t.col_count == 0 then maxColAddr t.cells + 1 else t.col_count) else t.col_count

def effRowCount (t : Table) : Nat :=
  if t.col_count == 0 || t.row_count == 0 then
    (if t.row_count == 0 then maxRowAddr t.cells + 1 else t.row_count) else t.row_count

/-- `calculate_spans` (in-place in the source; functional here). -/
def calculate_spans (t : Table) : Table :=
  if t.cells.isEmpty then t
  else
    let colCnt := effColCount t
    let rowCnt := effRowCount t
    let sorted := sortCells t.cells
    { t with cells := assignRowSpans rowCnt (assignColSpans colCnt sorted),
             col_count := colCnt, row_count := rowCnt }

/-! ## hwpx_to_org.py : table encoder -/

/-- One step of Python `str.replace(c, "\\" + c)`. -/
def escChar (c : Char) : PyStr → PyStr
  | [] => []
  | a :: rest => if a == c then '\\' :: c :: escChar c rest else a :: escChar c rest

/-- `escape_asciidoc`: escape `|`, `*`, `_` and the backquote, in that order. -/
def escape_asciidoc (text : PyStr) : PyStr :=
  escChar backquoteChar (escChar '_' (escChar '*' (escChar '|' text)))

/-- Decimal rendering of a Python int known to be nonnegative where used. -/
def intToDigits (n : Int) : PyStr := Nat.toDigits 10 n.toNat

/-- `format_merge_prefix`. -/
def format_merge_prefix (colSpan rowSpan : Int) : PyStr :=
  if 1 < colSpan ∧ 1 < rowSpan then intToDigits colSpan ++ '.' :: intToDigits rowSpan ++ ['+', '|']
  else if 1 < colSpan then intToDigits colSpan ++ ['+', '|']
  else if 1 < rowSpan then '.' :: intToDigits rowSpan ++ ['+', '|']
  else ['|']

def insertNat (n : Nat) : List Nat → List Nat
  | [] => [n]
  | m :: rest => if n < m then n :: m :: rest else m :: insertNat n rest

def sortNats (l : List Nat) : List Nat :=
  l.foldl (fun acc n => insertNat n acc) []

/-- `sorted(rows_map.keys())`: the distinct row addresses in ascending order. -/
def sortedRowKeys (cells : List TableCell) : List Nat :=
  sortNats ((cells.map (·.row_addr)).dedup)

/-- `sorted(rows_map[row_addr], key=lambda c: c.col_addr)` (stable). -/
def insertByColAddr (c : TableCell) : List TableCell → List TableCell
  | [] => [c]
  | d :: rest => if c.col_addr < d.col_addr then c :: d :: rest else d :: insertByColAddr c rest

def sortByColAddr (cs : List TableCell) : List TableCell :=
  cs.foldl (fun acc c => insertByColAddr c acc) []

/-- `table_to_asciidoc`. -/
def table_to_asciidoc (t : Table) : PyStr :=
  let colsLine := "[cols=\"".toList ++ List.intercalate [','] (List.replicate t.col_count ['1'])
      ++ "\"]".toList
  let rowBlocks := (sortedRowKeys t.cells).foldr (fun r acc =>
      let rowCells := sortByColAddr (t.cells.filter (fun c => c.row_addr == r))
      let parts := rowCells.map (fun c =>
        format_merge_prefix c.col_span c.row_span ++ escape_asciidoc c.text)
      List.intercalate ['\n'] parts :: [] :: acc) []
  List.intercalate ['\n'] ([colsLine, tableCloseMarker] ++ rowBlocks ++ [tableCloseMarker])

/-! ## hwpx_to_org.py : heading detection -/

/-- `re.sub(r'^고퀄\s*작성', '', text)`: anchored, so at most one replacement;
`\s*` is maximal since the following literal is not whitespace. -/
def memoSub1 (s : PyStr) : PyStr :=
  match s with
  | '고' :: '퀄' :: r =>
    (match (r.span pyIsSpace).2 with
     | '작' :: '성' :: r3 => r3
     | _ => s)
  | _ => s

/-- `re.sub(r'^고퀄,?\s*TTA\s*작성', '', text)`. -/
def memoSub2 (s : PyStr) : PyStr :=
  match s with
  | '고' :: '퀄' :: r =>
    let r1 := match r with | ',' :: rr => rr | _ => r
    (match (r1.span pyIsSpace).2 with
     | 'T' :: 'T' :: 'A' :: r3 =>
       (match (r3.span pyIsSpace).2 with
        | '작' :: '성' :: r5 => r5
        | _ => s)
     | _ => s)
  | _ => s

/-- Lazy scan for `.*?pat`: drop up to and including the first occurrence of
`pat`, where the skipped characters may not contain a newline (`.`). -/
def lazyFind (pat : PyStr) : PyStr → Option PyStr
  | [] => none
  | s@(c :: rest) =>
    if pat.isPrefixOf s then some (s.drop pat.length)
    else if c == '\n' then none
    else lazyFind pat rest

/-- `re.sub(r'^\[.*?작성.*?\]', '', text)`, with both lazy groups read as
first-occurrence scans.  (The regex engine could backtrack to a later `작성`
when no `]` follows the first one; that case does not arise on the newline-free
single occurrences these theorems evaluate.) -/
def memoSub3 (s : PyStr) : PyStr :=
  match s with
  | '[' :: r =>
    (match lazyFind ['작', '성'] r with
     | some r2 =>
       (match lazyFind [']'] r2 with
        | some r3 => r3
        | none => s)
     | none => s)
  | _ => s

/-- The lookahead `(?=\d+\.)`. -/
def memo4Tail (s : PyStr) : Bool :=
  let (d, r) := s.span Char.isDigit
  !d.isEmpty && r.headD ' ' == '.'

/-- Greedy scan for the last occurrence of `작성` followed by `\d+\.`, with no
newline among the characters skipped over (they are matched by `.+`). -/
def greedyFindLast : PyStr → Option PyStr
  | [] => none
  | c :: rest =>
    match (if c == '\n' then none else greedyFindLast rest) with
    | some r => some r
    | none =>
      match c :: rest with
      | '작' :: '성' :: r2 => if memo4Tail r2 then some r2 else none
      | _ => none

/-- `re.sub(r'^.+작성(?=\d+\.)', '', text)`: `.+` is greedy, so the match ends
at the last qualifying `작성`, which must start at index ≥ 1. -/
def memoSub4 (s : PyStr) : PyStr :=
  match s with
  | [] => s
  | c :: rest =>
    if c == '\n' then s
    else match greedyFindLast rest with
      | some r => r
      | none => s

/-- `strip_memo_prefix`. -/
def strip_memo_prefix (text : PyStr) : PyStr :=
  pyStrip (memoSub4 (memoSub3 (memoSub2 (memoSub1 text))))

/-- The tail `(.+)$`: nonempty, no newline, possibly one final trailing
newline outside the group. -/
def dotPlusEnd (t : PyStr) : Bool :=
  (!t.isEmpty && t.all (· != '\n')) ||
  (t.getLast? == some '\n' && !t.dropLast.isEmpty && t.dropLast.all (· != '\n'))

/-- The tail `\s{minWs,}(.+)$`: some `k ≥ minWs` whitespace characters (which
may include newlines) followed by a `(.+)$` tail. -/
def wsThenRest (minWs : Nat) (rest : PyStr) : Bool :=
  (List.range (rest.length + 1)).any (fun k =>
    decide (minWs ≤ k) && (rest.take k).all pyIsSpace && dotPlusEnd (rest.drop k))

/-- `r'^(\d+)\.\s+(.+)$'`. -/
def matchNum1 (s : PyStr) : Bool :=
  let (d, r) := s.span Char.isDigit
  !d.isEmpty && (match r with | '.' :: r2 => wsThenRest 1 r2 | _ => false)

/-- `r'^(\d+)-(\d+)\.\s+(.+)$'`. -/
def matchNum2 (s : PyStr) : Bool :=
  let (d1, r1) := s.span Char.isDigit
  !d1.isEmpty && (match r1 with
    | '-' :: r2 =>
      let (d2, r3) := r2.span Char.isDigit
      !d2.isEmpty && (match r3 with | '.' :: r4 => wsThenRest 1 r4 | _ => false)
    | _ => false)

/-- `r'^(\d+)-(\d+)-(\d+)\.\s+(.+)$'`. -/
def matchNum3 (s : PyStr) : Bool :=
  let (d1, r1) := s.span Char.isDigit
  !d1.isEmpty && (match r1 with
    | '-' :: r2 =>
      let (d2, r3) := r2.span Char.isDigit
      !d2.isEmpty && (match r3 with
        | '-' :: r4 =>
          let (d3, r5) := r4.span Char.isDigit
          !d3.isEmpty && (match r5 with | '.' :: r6 => wsThenRest 1 r6 | _ => false)
        | _ => false)
    | _ => false)

/-- A bullet pattern `^G\s*(.+)$` (or `\s+` when `minWs = 1`). -/
def matchBulletPat (glyph : Char) (minWs : Nat) (s : PyStr) : Bool :=
  match s with
  | c :: r => c == glyph && wsThenRest minWs r
  | [] => false

/-- `r'^<([^>]+)>$'` (the bracket class also matches newlines). -/
def matchAngleCore (r : PyStr) : Bool :=
  r.getLast? == some '>' && !r.dropLast.isEmpty && r.dropLast.all (· != '>')

def matchAngle (s : PyStr) : Bool :=
  match s with
  | '<' :: r => matchAngleCore r || (r.getLast? == some '\n' && matchAngleCore r.dropLast)
  | _ => false

def isHangul (c : Char) : Bool :=
  0xAC00 ≤ c.toNat && c.toNat ≤ 0xD7A3

/-- `r'^[가-힣]\.\s+(.+)$'`. -/
def matchKor1 (s : PyStr) : Bool :=
  match s with
  | c :: '.' :: r => isHangul c && wsThenRest 1 r
  | _ => false

/-- `r'^\([가-힣]\)\s+(.+)$'`. -/
def matchKor2 (s : PyStr) : Bool :=
  match s with
  | '(' :: c :: ')' :: r => isHangul c && wsThenRest 1 r
  | _ => false

/-- `r'^\(\d+\)\s+(.+)$'`. -/
def matchKor3 (s : PyStr) : Bool :=
  match s with
  | '(' :: r =>
    let (d, r2) := r.span Char.isDigit
    !d.isEmpty && (match r2 with | ')' :: r3 => wsThenRest 1 r3 | _ => false)
  | _ => false

/-- `detect_heading` (the style id is accepted and ignored, as in the source). -/
def detect_heading (text : PyStr) (styleId : Nat) : Bool × Nat :=
  let _ := styleId
  let t := strip_memo_prefix (pyStrip text)
  if matchNum1 t then (true, 1)
  else if matchNum2 t then (true, 2)
  else if matchNum3 t then (true, 3)
  else if matchBulletPat '□' 0 t then (true, 3)
  else if matchBulletPat '○' 0 t then (true, 4)
  else if matchBulletPat 'o' 1 t then (true, 4)
  else if matchBulletPat '-' 1 t then (true, 5)
  else if matchBulletPat '⋅' 0 t then (true, 6)
  else if matchBulletPat '·' 0 t then (true, 6)
  else if matchAngle t then (true, 7)
  else if matchKor1 t then (true, 3)
  else if matchKor2 t then (true, 4)
  else if matchKor3 t then (true, 4)
  else (false, 0)

/-! ## org_to_hwpx.py : heading encoder -/

/-- `HEADING_BULLETS` dict with `.get(level, '')`. -/
def HEADING_BULLETS (level : Nat) : PyStr :=
  match level with
  | 3 => ['□', ' ']
  | 4 => ['o', ' ']
  | 5 => ['-', ' ']
  | 6 => ['⋅']
  | _ => []

/-- `re.match(r'^\d+[\.-]', title)`. -/
def hasNumDashPrefix (s : PyStr) : Bool :=
  let (d, r) := s.span Char.isDigit
  !d.isEmpty && (r.headD ' ' == '.' || r.headD ' ' == '-')

/-- `re.sub(r'^[□○o\-⋅·]\s*', '', title)`. -/
def stripBulletGlyph (s : PyStr) : PyStr :=
  match s with
  | c :: r =>
    if c == '□' || c == '○' || c == 'o' || c == '-' || c == '⋅' || c == '·'
    then (r.span pyIsSpace).2 else s
  | [] => s

/-- `heading_to_hwpx_text`, on the `level`/`title` fields of an `OrgHeading`. -/
def heading_to_hwpx_text (level : Nat) (title : PyStr) : PyStr :=
  if hasNumDashPrefix title then title
  else HEADING_BULLETS level ++ stripBulletGlyph title

/-! ## hwpx_to_org.py : document tree builder and Org emitter -/

/-- `Paragraph` dataclass. -/
structure Paragraph where
  text : PyStr
  style_id : Nat := 0
  is_heading : Bool := false
  heading_level : Nat := 0
  is_table : Bool := false
  table_data : Option Table := none
  is_guide : Bool := false
  hwpx_idx : Int := -1
deriving DecidableEq, Repr

/-- A `<hp:tc>` cell as the tree builder reads it: the `cellAddr` attributes and
the texts of its `<hp:t>` descendants (joined with a space by `parse_table`). -/
structure RawCell where
  rowAddr : Nat := 0
  colAddr : Nat := 0
  texts : List PyStr := []
deriving DecidableEq, Repr

/-- A `<hp:tbl>` element: `rowCnt`/`colCnt` attributes and its cells. -/
structure RawTable where
  rowCnt : Nat := 0
  colCnt : Nat := 0
  rawCells : List RawCell := []
deriving DecidableEq, Repr

/-- A top-level child of a section root: a `<hp:p>` (with its concatenated run
text, `styleIDRef` and nested `<hp:tbl>` elements) or any other element, which
the builder's loop skips. -/
inductive SectionElem where
  | para (text : PyStr) (styleId : Nat) (tbls : List RawTable)
  | other
deriving DecidableEq, Repr

/-- The alternation `작성\s*요령|작성요령` at one position (the second branch is
the first with zero whitespace). -/
def guideAt (s : PyStr) : Bool :=
  match s with
  | '작' :: '성' :: r =>
    (match (r.span pyIsSpace).2 with
     | '요' :: '령' :: _ => true
     | _ => false)
  | _ => false

/-- `re.search(r'작성\s*요령|작성요령', s)`. -/
def guideSearch : PyStr → Bool
  | [] => false
  | s@(_ :: rest) => guideAt s || guideSearch rest

/-- `parse_table`. -/
def parse_table (rt : RawTable) : Table :=
  let cells := rt.rawCells.map (fun rc =>
    { text := List.intercalate [' '] rc.texts, col_addr := rc.colAddr, row_addr := rc.rowAddr
      : TableCell })
  let table := calculate_spans { cells := cells, col_count := rt.colCnt, row_count := rt.rowCnt }
  let allText := List.intercalate [' '] (table.cells.map (·.text))
  if guideSearch (allText.take 200) then { table with is_guide := true } else table

/-- `re.match(r'^<(.+)>$', text)` with the capture group: greedy `.+` reaches
the final `>`, the group may not contain a newline (inputs are pre-stripped, so
the trailing-newline form of `$` cannot occur). -/
def titleMatch (s : PyStr) : Option PyStr :=
  match s with
  | '<' :: r =>
    if r.getLast? == some '>' && !r.dropLast.isEmpty && r.dropLast.all (· != '\n')
    then some r.dropLast else none
  | _ => none

/-- The `for tbl in elem.findall('.//hp:tbl')` loop body of `parse_hwpx`:
emit a table node per table with nonempty cells; the first such table consumes
the pending `last_table_title`. -/
def tableNodes (tbls : List RawTable) (idx : Nat) (lastTitle : PyStr) :
    List Paragraph × PyStr :=
  match tbls with
  | [] => ([], lastTitle)
  | rt :: rest =>
    let table := parse_table rt
    if table.cells.isEmpty then tableNodes rest idx lastTitle
    else
      let consumed := !lastTitle.isEmpty
      let table2 := if consumed then { table with title := lastTitle } else table
      let lt2 : PyStr := if consumed then [] else lastTitle
      let node : Paragraph := { text := [], is_table := true, table_data := some table2,
                                is_guide := table2.is_guide, hwpx_idx := (idx : Int) }
      let (ns, ltF) := tableNodes rest idx lt2
      (node :: ns, ltF)

/-- The per-element body of `parse_hwpx`'s `for elem in root` loop, given the
index the element would receive.  Empty-text and over-length paragraphs emit
nothing (but still consumed their index in `processElems`). -/
def elemNodes (includeTables : Bool) (e : SectionElem) (idx : Nat) (lastTitle : PyStr) :
    List Paragraph × PyStr :=
  match e with
  | .other => ([], lastTitle)
  | .para text styleId tbls =>
    if (pyStrip text).isEmpty then ([], lastTitle)
    else if 1000 < text.length then ([], lastTitle)
    else
      let hd := detect_heading text styleId
      let lt2 := match titleMatch (pyStrip text) with
        | some m => m
        | none => lastTitle
      let pNode : Paragraph := { text := pyStrip text, style_id := styleId,
                                 is_heading := hd.1, heading_level := hd.2,
                                 hwpx_idx := (idx : Int) }
      if includeTables then
        let (tns, ltF) := tableNodes tbls idx lt2
        (pNode :: tns, ltF)
      else (pNode :: [], lt2)

/-- `para_idx` advances only on `<hp:p>` children. -/
def elemIdxStep (e : SectionElem) (idx : Nat) : Nat :=
  match e with | .para _ _ _ => idx + 1 | .other => idx

/-- The element loop of one section: `para_idx` advances by one per `<hp:p>`
child, whether or not it emitted nodes. -/
def processElems (includeTables : Bool) :
    List SectionElem → Nat → PyStr → List Paragraph × Nat × PyStr
  | [], idx, lt => ([], idx, lt)
  | e :: rest, idx, lt =>
    let step := elemNodes includeTables e idx lt
    let rec2 := processElems includeTables rest (elemIdxStep e idx) step.2
    (step.1 ++ rec2.1, rec2.2.1, rec2.2.2)

/-- The section loop: `para_idx` persists across sections, `last_table_title`
resets per section. -/
def processSections (includeTables : Bool) :
    List (List SectionElem) → Nat → List Paragraph × Nat
  | [], idx => ([], idx)
  | sec :: rest, idx =>
    let step := processElems includeTables sec idx []
    let rec2 := processSections includeTables rest step.2.1
    (step.1 ++ rec2.1, rec2.2)

/-- `parse_hwpx`, over the already-sorted section streams of the container. -/
def parse_hwpx (sections : List (List SectionElem)) (includeTables : Bool := true) :
    List Paragraph :=
  (processSections includeTables sections 0).1

def tocTexts : List PyStr := ["목  차".toList, "목 차".toList, "목차".toList]

/-- The per-paragraph lines emitted by `convert_to_org`'s loop. -/
def paraLines (para : Paragraph) : List PyStr :=
  if tocTexts.contains (pyStrip para.text) then []
  else
    let text := pyStrip para.text
    match para.table_data, para.is_table with
    | some table, true =>
      let adoc := table_to_asciidoc table
      if para.is_guide then
        (if 0 ≤ para.hwpx_idx then ["#+HWPX: ".toList ++ intToDigits para.hwpx_idx] else []) ++
        ["#+BEGIN_EXAMPLE :name 작성요령".toList, adoc, "#+END_EXAMPLE".toList, []]
      else
        let nameAttr := if !table.title.isEmpty then " :name ".toList ++ table.title else []
        (if 0 ≤ para.hwpx_idx then ["#+HWPX: ".toList ++ intToDigits para.hwpx_idx] else []) ++
        ["#+BEGIN_SRC asciidoc".toList ++ nameAttr, adoc, "#+END_SRC".toList, []]
    | _, _ =>
      if para.is_heading then
        let stars := List.replicate para.heading_level '*'
        (stars ++ ' ' :: strip_memo_prefix text) ::
        (if 0 ≤ para.hwpx_idx then
          [":PROPERTIES:".toList, ":HWPX_IDX: ".toList ++ intToDigits para.hwpx_idx,
           ":END:".toList] else []) ++ [[]]
      else
        (if 0 ≤ para.hwpx_idx then ["#+HWPX: ".toList ++ intToDigits para.hwpx_idx] else []) ++
        [text, []]

/-- The line list built by `convert_to_org`; `now` is the
`datetime.now().strftime('%Y-%m-%d %a %H:%M')` string read from the clock at
the moment of the call. -/
def convert_to_org_lines (paragraphs : List Paragraph) (title now : PyStr) : List PyStr :=
  ["#+TITLE: ".toList ++ (if title.isEmpty then "HWPX 변환 문서".toList else title),
   "#+DATE: [".toList ++ now ++ [']'],
   "#+STARTUP: overview".toList,
   []] ++ paragraphs.foldr (fun p acc => paraLines p ++ acc) []

/-- `convert_to_org`. -/
def convert_to_org (paragraphs : List Paragraph) (title now : PyStr) : PyStr :=
  List.intercalate ['\n'] (convert_to_org_lines paragraphs title now)

/-! ## org_to_hwpx.py : binary ZIP patcher

Bytes are `List Nat`.  `struct.unpack_from` reads little-endian fields; reads
are modelled with a zero default (Python would raise on a short buffer, a case
the well-formedness hypotheses of the theorems exclude), and `struct.pack_into`
is modelled with `List.set`, which is silently out-of-bounds-safe for the same
reason.  `zlib.compressobj(2, zlib.DEFLATED, -15)` and `zlib.crc32` are
library functions outside this repository, so `patch_hwpx_binary` is
parametrised over them. -/

def byteAt (l : List Nat) (i : Nat) : Nat := l.getD i 0

def readU16 (data : List Nat) (off : Nat) : Nat :=
  byteAt data off + 256 * byteAt data (off + 1)

def readU32 (data : List Nat) (off : Nat) : Nat :=
  byteAt data off + 256 * byteAt data (off + 1) + 65536 * byteAt data (off + 2)
    + 16777216 * byteAt data (off + 3)

def writeU32 (l : List Nat) (off : Nat) (v : Nat) : List Nat :=
  (((l.set off (v % 256)).set (off + 1) (v / 256 % 256)).set
    (off + 2) (v / 65536 % 256)).set (off + 3) (v / 16777216 % 256)

/-- Python `data[a:b]` for `0 ≤ a, b` (clamping, empty when `a ≥ b`). -/
def pySlice (l : List Nat) (a b : Nat) : List Nat := (l.take b).drop a

/-- `b'PK\x05\x06'` at position `i` (all four signature bytes are nonzero, so
the zero default of `byteAt` cannot fabricate a match). -/
def sigAt (data : List Nat) (i : Nat) : Bool :=
  byteAt data i == 80 && byteAt data (i + 1) == 75 &&
  byteAt data (i + 2) == 5 && byteAt data (i + 3) == 6

/-- `data.rfind(b'PK\x05\x06')`, `none` for Python's `-1`. -/
def findLastSig (data : List Nat) : Option Nat :=
  ((List.range data.length).filter (sigAt data)).getLast?

/-- One central-directory record as `_parse_zip_structure` reads it. -/
structure CDEntry where
  cd_off : Nat
  cd_size : Nat
  name : List Nat
  crc32 : Nat
  comp_size : Nat
  uncomp_size : Nat
  local_off : Nat
deriving DecidableEq, Repr

/-- The `for _ in range(num_entries)` loop of `_parse_zip_structure`. -/
def parseCDEntries (data : List Nat) : Nat → Nat → List CDEntry
  | _, 0 => []
  | off, n + 1 =>
    let nlen := readU16 data (off + 28)
    let elen := readU16 data (off + 30)
    let clen := readU16 data (off + 32)
    let e : CDEntry := {
      cd_off := off,
      cd_size := 46 + nlen + elen + clen,
      name := (data.drop (off + 46)).take nlen,
      crc32 := readU32 data (off + 16),
      comp_size := readU32 data (off + 20),
      uncomp_size := readU32 data (off + 24),
      local_off := readU32 data (off + 42) }
    e :: parseCDEntries data (off + e.cd_size) n

/-- `_parse_zip_structure`; `none` is the `ValueError("EOCD not found")`. -/
def parse_zip_structure (data : List Nat) :
    Option (List CDEntry × Nat × Nat × Nat) :=
  match findLastSig data with
  | none => none
  | some eocdOff =>
    let cdOff := readU32 data (eocdOff + 16)
    let numEntries := readU16 data (eocdOff + 10)
    some (parseCDEntries data cdOff numEntries, cdOff, eocdOff, numEntries)

/-- `'Contents/section0.xml'` as UTF-8 bytes. -/
def targetName : List Nat := "Contents/section0.xml".toList.map Char.toNat

/-- The central-directory rewrite loop of `patch_hwpx_binary` (the `for ce in
cd_entries` loop, one record at a time). -/
def patchCDLoop (newCdOff cdOff dataEnd : Nat)
    (newCrc newCompSize newUncompSize : Nat) (delta : Int) :
    List CDEntry → List Nat → List Nat
  | [], r => r
  | ce :: rest, r =>
    let ceNewOff := newCdOff + (ce.cd_off - cdOff)
    let r2 := if ce.name = targetName then
        writeU32 (writeU32 (writeU32 r (ceNewOff + 16) newCrc)
          (ceNewOff + 20) newCompSize) (ceNewOff + 24) newUncompSize
      else if dataEnd ≤ ce.local_off then
        writeU32 r (ceNewOff + 42) (((ce.local_off : Int) + delta).toNat % 4294967296)
      else r
    patchCDLoop newCdOff cdOff dataEnd newCrc newCompSize newUncompSize delta rest r2

/-- `patch_hwpx_binary` on the template bytes, returning the output bytes
(`none` for the two `ValueError`s).  `compress` stands for the fixed
deflate-level-2 raw stream and `crc` for `zlib.crc32`; the `& 0xFFFFFFFF`
of the source is kept explicitly. -/
def patch_hwpx_binary (compress : List Nat → List Nat) (crc : List Nat → Nat)
    (data newSectionXml : List Nat) : Option (List Nat) :=
  match parse_zip_structure data with
  | none => none
  | some (cdEntries, cdOff, eocdOff, _numEntries) =>
    match cdEntries.find? (fun ce => ce.name = targetName) with
    | none => none
    | some secEntry =>
      let locOff := secEntry.local_off
      let nlen := readU16 data (locOff + 26)
      let elen := readU16 data (locOff + 28)
      let dataStart := locOff + 30 + nlen + elen
      let oldCompSize := secEntry.comp_size
      let dataEnd := dataStart + oldCompSize
      let newCrc := crc newSectionXml % 4294967296
      let newUncompSize := newSectionXml.length
      let newCompressed := compress newSectionXml
      let newCompSize := newCompressed.length
      let delta : Int := (newCompSize : Int) - (oldCompSize : Int)
      let part1 := data.take dataStart
      let part3 := pySlice data dataEnd cdOff
      let part4 := pySlice data cdOff eocdOff
      let part5 := data.drop eocdOff
      let newCdOff := (part1 ++ newCompressed ++ part3).length
      let newEocdOff := (part1 ++ newCompressed ++ part3 ++ part4).length
      let result0 := part1 ++ newCompressed ++ part3 ++ part4 ++ part5
      let r1 := writeU32 result0 (locOff + 14) newCrc
      let r2 := writeU32 r1 (locOff + 18) newCompSize
      let r3 := writeU32 r2 (locOff + 22) newUncompSize
      let r4 := patchCDLoop newCdOff cdOff dataEnd newCrc newCompSize
        newUncompSize delta cdEntries r3
      some (writeU32 r4 (newEocdOff + 16) newCdOff)

/-! ## Concrete containers used by the patcher theorems -/

/-- A minimal well-formed container: one local header + name + 4-byte payload,
one central-directory record, end-of-directory record. -/
def wLocalHeader : List Nat := [80, 75, 3, 4] ++ List.replicate 22 0 ++ [21, 0] ++ [0, 0]

def wCDRecord : List Nat :=
  [80, 75, 1, 2] ++ List.replicate 12 0 ++ [0, 0, 0, 0] ++ [4, 0, 0, 0] ++ [4, 0, 0, 0]
  ++ [21, 0] ++ [0, 0] ++ [0, 0] ++ List.replicate 8 0 ++ [0, 0, 0, 0] ++ targetName

def wEOCD : List Nat :=
  [80, 75, 5, 6] ++ List.replicate 6 0 ++ [1, 0] ++ [67, 0, 0, 0] ++ [55, 0, 0, 0] ++ [0, 0]

def wContainer : List Nat := wLocalHeader ++ targetName ++ [1, 2, 3, 4] ++ wCDRecord ++ wEOCD

/-- The same container with the entry named `Contents/sectionX.xml` instead. -/
def wOtherName : List Nat := "Contents/sectionX.xml".toList.map Char.toNat

def wCDRecordOther : List Nat :=
  [80, 75, 1, 2] ++ List.replicate 12 0 ++ [0, 0, 0, 0] ++ [4, 0, 0, 0] ++ [4, 0, 0, 0]
  ++ [21, 0] ++ [0, 0] ++ [0, 0] ++ List.replicate 8 0 ++ [0, 0, 0, 0] ++ wOtherName

def wContainerNoEntry : List Nat := wLocalHeader ++ wOtherName ++ [1, 2, 3, 4] ++ wCDRecordOther ++ wEOCD

/-! ## C4 : span reconstruction, concrete scenario A -/

/-- The 2×2 grid of scenario A: addresses (row,col) = (0,0), (1,0), (1,1); the
covered address (0,1) is absent. -/
def scenarioATable : Table :=
  { cells := [ { text := [], col_addr := 0, row_addr := 0 },
               { text := [], col_addr := 0, row_addr := 1 },
               { text := [], col_addr := 1, row_addr := 1 } ],
    col_count := 2, row_count := 2 }

/-- Claim C4: on a 2×2 table whose cell list holds exactly the cells addressed
(0,0), (1,0) and (1,1), `calculate_spans` assigns col_span 2 and row_span 1 to
the cell at (0,0) and 1×1 spans to the cells at (1,0) and (1,1). -/
theorem C4_calculate_spans_scenarioA :
    (calculate_spans scenarioATable).cells =
      [ { text := [], col_span := 2, row_span := 1, col_addr := 0, row_addr := 0 },
        { text := [], col_span := 1, row_span := 1, col_addr := 0, row_addr := 1 },
        { text := [], col_span := 1, row_span := 1, col_addr := 1, row_addr := 1 } ] := by
  decide

/-! ## C2 : table codec round-trip -/

/-- A 2-row, 1-column table whose single cell at (0,0) spans both rows: its
text "a" contains no `|===` close marker, so the round-trip guarantee of the
spec covers it. -/
def rowSpanOnlyTable : Table :=
  { cells := [ { text := ['a'], col_span := 1, row_span := 2, col_addr := 0, row_addr := 0 } ],
    col_count := 1, row_count := 2 }

/-- Claim C2 (violated by the code): decoding the encoding of
`rowSpanOnlyTable` loses the grid entirely.  `table_to_asciidoc` emits the
cell as the line `.2+|a`, the rowspan merge syntax that the parser's own
module docstring documents, but `parse_asciidoc_table` only feeds lines
starting with `|` or a digit to `parse_asciidoc_cell`, so the line is dropped
and the decoded table has no rows at all instead of the original 1-cell,
1-row grid. -/
theorem C2_roundtrip_loses_rowspan_cell :
    (parse_asciidoc_table (table_to_asciidoc rowSpanOnlyTable)).rows = [] ∧
    rowSpanOnlyTable.cells.length = 1 ∧
    (rowSpanOnlyTable.cells.map (·.row_span)) = [2] := by
  refine ⟨by decide, by decide, by decide⟩

/-! ## C7 : heading decode of "1-1. 개요" -/

/-- Claim C7 counterexample: decode does classify `"1-1. 개요"` as a level-2
heading, but the text the decode direction emits (`strip_memo_prefix` of the
stripped text, as in `convert_to_org`) is not the cleaned `"개요"`: the
numeric prefix is kept. -/
theorem C7_counterexample :
    detect_heading "1-1. 개요".toList 0 = (true, 2) ∧
    strip_memo_prefix (pyStrip "1-1. 개요".toList) ≠ "개요".toList := by
  refine ⟨by decide, by decide⟩

/-- Claim C7 (amended): `"1-1. 개요"` decodes to level 2 with the numeric
prefix kept in the recovered text (`"1-1. 개요"`), and encoding level 2 with
text `"개요"` and no external counter state emits just `"개요"`, inventing no
number. -/
theorem C7_amended_decode_encode :
    detect_heading "1-1. 개요".toList 0 = (true, 2) ∧
    strip_memo_prefix (pyStrip "1-1. 개요".toList) = "1-1. 개요".toList ∧
    heading_to_hwpx_text 2 "개요".toList = "개요".toList := by
  refine ⟨by decide, by decide, by decide⟩

/-! ## C6 : malformed cell lines -/

/-- Claim C5: when the container has no end-of-directory signature, or the
central directory holds no entry named `Contents/section0.xml`,
`patch_hwpx_binary` fails hard (returns `none`, the model of the two
`ValueError`s raised before any output is written) rather than returning any
container bytes. -/
theorem C5_patch_fails_hard (compress : List Nat → List Nat) (crc : List Nat → Nat)
    (data payload : List Nat)
    (h : findLastSig data = none ∨
      ∃ pr : List CDEntry × Nat × Nat × Nat, parse_zip_structure data = some pr ∧
        pr.1.find? (fun ce => ce.name = targetName) = none) :
    patch_hwpx_binary compress crc data payload = none := by
  rcases h with h | ⟨⟨entries, cdOff, eocdOff, n⟩, hp, hf⟩
  · simp [patch_hwpx_binary, parse_zip_structure, h]
  · simp only at hf
    simp [patch_hwpx_binary, hp, hf]

set_option maxRecDepth 8192 in
/-- Witness for C5: a concrete container whose only entry is named
`Contents/sectionX.xml`; the patcher rejects it. -/
theorem C5_patch_fails_hard_witness :
    patch_hwpx_binary (fun l => l) (fun _ => 0) wContainerNoEntry [1] = none :=
  C5_patch_fails_hard (fun l => l) (fun _ => 0) wContainerNoEntry [1]
    (Or.inr ⟨(parseCDEntries wContainerNoEntry 55 1, 55, 122, 1), by decide, by decide⟩)

/-! ## C8 : determinism of the Org emitter -/

/-- Claim C8 counterexample: `convert_to_org` embeds the wall clock in its
`#+DATE:` line, so two invocations on the same (here: empty) paragraph list
made at different clock readings produce different text. -/
theorem C8_counterexample :
    convert_to_org [] [] "2026-01-01 Thu 00:00".toList ≠
    convert_to_org [] [] "2026-01-02 Fri 00:00".toList := by
  decide

/-- Claim C8 (amended): the Org text produced by `convert_to_org` from the
same paragraph list is a pure function of the paragraphs, the title and the
clock string; two invocations differ at most in the `#+DATE:` line (line
index 1), and are byte-identical exactly when the formatted timestamps
agree. -/
theorem C8_amended_lines_agree_off_date (paragraphs : List Paragraph)
    (title n1 n2 : PyStr) (i : Nat) (hi : i ≠ 1) :
    (convert_to_org_lines paragraphs title n1).get? i =
    (convert_to_org_lines paragraphs title n2).get? i := by
  match i, hi with
  | 0, _ => rfl
  | 1, h => exact absurd rfl h
  | k + 2, _ => rfl

/-- Witness for C8 (amended) at line 0 of the empty document. -/
theorem C8_amended_witness :
    (convert_to_org_lines [] [] "a".toList).get? 0 =
    (convert_to_org_lines [] [] "b".toList).get? 0 :=
  C8_amended_lines_agree_off_date [] [] "a".toList "b".toList 0 (by decide)

/-! ## C3 : heading round-trip -/

theorem keyLtB_iff (a b : Nat × Nat) :
    keyLtB a b = true ↔ (a.1 < b.1 ∨ (a.1 = b.1 ∧ a.2 < b.2)) := by
  simp [keyLtB]

theorem keyLtB_false_iff (a b : Nat × Nat) :
    keyLtB a b = false ↔ ¬ (a.1 < b.1 ∨ (a.1 = b.1 ∧ a.2 < b.2)) := by
  rw [← keyLtB_iff]
  exact ⟨fun h => by simp [h], fun h => by simpa using h⟩

/-- The sortedness relation established by the stable sort: no later cell has a
strictly smaller key. -/
def cellLe (c d : TableCell) : Prop := keyLtB (cellKey d) (cellKey c) = false

theorem insertCell_perm (c : TableCell) (l : List TableCell) :
    List.Perm (insertCell c l) (c :: l) := by
  induction l with
  | nil => exact List.Perm.refl _
  | cons d rest ih =>
    rw [insertCell]
    by_cases h : keyLtB (cellKey c) (cellKey d) = true
    · rw [if_pos h]
    · rw [if_neg h]
      exact (ih.cons d).trans (List.Perm.swap c d rest)

theorem mem_insertCell {x c : TableCell} {l : List TableCell}
    (h : x ∈ insertCell c l) : x = c ∨ x ∈ l := by
  have := (insertCell_perm c l).mem_iff.mp h
  simpa using this

theorem insertCell_sorted (c : TableCell) (l : List TableCell)
    (h : l.Pairwise cellLe) : (insertCell c l).Pairwise cellLe := by
  induction l with
  | nil => simp [insertCell, List.pairwise_cons]
  | cons d rest ih =>
    rw [insertCell]
    rcases List.pairwise_cons.mp h with ⟨hd, hrest⟩
    by_cases hlt : keyLtB (cellKey c) (cellKey d) = true
    · rw [if_pos hlt]
      refine List.pairwise_cons.mpr ⟨?_, h⟩
      intro x hx
      rcases List.mem_cons.mp hx with rfl | hx
      · unfold cellLe
        rw [keyLtB_false_iff]
        have := (keyLtB_iff _ _).mp hlt
        omega
      · have hdx := hd x hx
        unfold cellLe at hdx ⊢
        rw [keyLtB_false_iff] at hdx ⊢
        have := (keyLtB_iff _ _).mp hlt
        omega
    · rw [if_neg hlt]
      refine List.pairwise_cons.mpr ⟨?_, ih hrest⟩
      intro x hx
      rcases mem_insertCell hx with rfl | hx
      · unfold cellLe
        simpa using hlt
      · exact hd x hx

theorem sortCells_perm (cs : List TableCell) : List.Perm (sortCells cs) cs := by
  suffices h : ∀ acc, List.Perm (cs.foldl (fun acc c => insertCell c acc) acc) (cs ++ acc) by
    simpa using h []
  induction cs with
  | nil => intro acc; simp
  | cons c rest ih =>
    intro acc
    have h1 := ih (insertCell c acc)
    have h2 : List.Perm (rest ++ insertCell c acc) (rest ++ (c :: acc)) :=
      (insertCell_perm c acc).append_left rest
    have h3 : List.Perm (rest ++ (c :: acc)) (c :: (rest ++ acc)) := List.perm_middle
    simpa using (h1.trans h2).trans h3

theorem sortCells_sorted (cs : List TableCell) : (sortCells cs).Pairwise cellLe := by
  suffices h : ∀ acc, acc.Pairwise cellLe →
      (cs.foldl (fun acc c => insertCell c acc) acc).Pairwise cellLe by
    exact h [] List.Pairwise.nil
  induction cs with
  | nil => intro acc hacc; simpa using hacc
  | cons c rest ih =>
    intro acc hacc
    exact ih (insertCell c acc) (insertCell_sorted c acc hacc)

theorem assignColSpans_addrs (n : Nat) (l : List TableCell) :
    (assignColSpans n l).map cellKey = l.map cellKey := by
  induction l with
  | nil => rfl
  | cons c rest ih =>
    rw [assignColSpans]
    cases rest.find? (fun d => d.row_addr == c.row_addr) with
    | none => simpa [cellKey] using ih
    | some d => simpa [cellKey] using ih

theorem assignRowSpans_addrs (m : Nat) (l : List TableCell) :
    (assignRowSpans m l).map cellKey = l.map cellKey := by
  induction l with
  | nil => rfl
  | cons c rest ih =>
    rw [assignRowSpans]
    cases rest.find? (fun d => d.col_addr == c.col_addr) with
    | none => simpa [cellKey] using ih
    | some d => simpa [cellKey] using ih

theorem mem_assignColSpans_shape (n : Nat) (l : List TableCell) :
    ∀ c2 ∈ assignColSpans n l, ∃ c1 ∈ l,
      c2.row_addr = c1.row_addr ∧ c2.col_addr = c1.col_addr ∧ c2.row_span = c1.row_span := by
  induction l with
  | nil => intro c2 h; cases h
  | cons c rest ih =>
    intro c2 h2
    rw [assignColSpans] at h2
    rcases List.mem_cons.mp h2 with h2 | h2
    · refine ⟨c, List.mem_cons_self c rest, ?_⟩
      cases hf : rest.find? (fun d => d.row_addr == c.row_addr) with
      | none => rw [hf] at h2; subst h2; exact ⟨rfl, rfl, rfl⟩
      | some d => rw [hf] at h2; subst h2; exact ⟨rfl, rfl, rfl⟩
    · rcases ih c2 h2 with ⟨c1, hc1, hs⟩
      exact ⟨c1, List.mem_cons_of_mem c hc1, hs⟩

theorem mem_assignRowSpans_shape (m : Nat) (l : List TableCell) :
    ∀ c2 ∈ assignRowSpans m l, ∃ c1 ∈ l,
      c2.row_addr = c1.row_addr ∧ c2.col_addr = c1.col_addr ∧ c2.col_span = c1.col_span := by
  induction l with
  | nil => intro c2 h; cases h
  | cons c rest ih =>
    intro c2 h2
    rw [assignRowSpans] at h2
    rcases List.mem_cons.mp h2 with h2 | h2
    · refine ⟨c, List.mem_cons_self c rest, ?_⟩
      cases hf : rest.find? (fun d => d.col_addr == c.col_addr) with
      | none => rw [hf] at h2; subst h2; exact ⟨rfl, rfl, rfl⟩
      | some d => rw [hf] at h2; subst h2; exact ⟨rfl, rfl, rfl⟩
    · rcases ih c2 h2 with ⟨c1, hc1, hs⟩
      exact ⟨c1, List.mem_cons_of_mem c hc1, hs⟩

/-- The colspan pass emits only positive spans on a key-sorted, address-distinct
cell list whose column addresses are below the column count. -/
theorem assignColSpans_pos (n : Nat) (l : List TableCell)
    (hsort : l.Pairwise cellLe)
    (hdist : l.Pairwise (fun c d => cellKey c ≠ cellKey d))
    (hbound : ∀ c ∈ l, c.col_addr < n) :
    ∀ c2 ∈ assignColSpans n l, 1 ≤ c2.col_span := by
  induction l with
  | nil => intro c2 h; cases h
  | cons c rest ih =>
    rcases List.pairwise_cons.mp hsort with ⟨hs, hsort2⟩
    rcases List.pairwise_cons.mp hdist with ⟨hdis, hdist2⟩
    intro c2 h2
    rw [assignColSpans] at h2
    rcases List.mem_cons.mp h2 with h2 | h2
    · cases hf : rest.find? (fun d => d.row_addr == c.row_addr) with
      | none =>
        rw [hf] at h2; subst h2
        have hb := hbound c (List.mem_cons_self c rest)
        show (1 : Int) ≤ (n : Int) - (c.col_addr : Int)
        omega
      | some d =>
        rw [hf] at h2; subst h2
        have hdm : d ∈ rest := List.mem_of_find?_eq_some hf
        have hrow : d.row_addr = c.row_addr := by
          have := List.find?_some hf
          simpa using this
        have hle : keyLtB (cellKey d) (cellKey c) = false := hs d hdm
        have hne : cellKey c ≠ cellKey d := hdis d hdm
        rw [keyLtB_false_iff] at hle
        simp only [cellKey] at hle hne
        rw [Ne, Prod.mk.injEq] at hne
        show (1 : Int) ≤ (d.col_addr : Int) - (c.col_addr : Int)
        omega
    · exact ih hsort2 hdist2 (fun x hx => hbound x (List.mem_cons_of_mem c hx)) c2 h2

/-- The rowspan pass, symmetric to `assignColSpans_pos`. -/
theorem assignRowSpans_pos (m : Nat) (l : List TableCell)
    (hsort : l.Pairwise cellLe)
    (hdist : l.Pairwise (fun c d => cellKey c ≠ cellKey d))
    (hbound : ∀ c ∈ l, c.row_addr < m) :
    ∀ c2 ∈ assignRowSpans m l, 1 ≤ c2.row_span := by
  induction l with
  | nil => intro c2 h; cases h
  | cons c rest ih =>
    rcases List.pairwise_cons.mp hsort with ⟨hs, hsort2⟩
    rcases List.pairwise_cons.mp hdist with ⟨hdis, hdist2⟩
    intro c2 h2
    rw [assignRowSpans] at h2
    rcases List.mem_cons.mp h2 with h2 | h2
    · cases hf : rest.find? (fun d => d.col_addr == c.col_addr) with
      | none =>
        rw [hf] at h2; subst h2
        have hb := hbound c (List.mem_cons_self c rest)
        show (1 : Int) ≤ (m : Int) - (c.row_addr : Int)
        omega
      | some d =>
        rw [hf] at h2; subst h2
        have hdm : d ∈ rest := List.mem_of_find?_eq_some hf
        have hcol : d.col_addr = c.col_addr := by
          have := List.find?_some hf
          simpa using this
        have hle : keyLtB (cellKey d) (cellKey c) = false := hs d hdm
        have hne : cellKey c ≠ cellKey d := hdis d hdm
        rw [keyLtB_false_iff] at hle
        simp only [cellKey] at hle hne
        rw [Ne, Prod.mk.injEq] at hne
        show (1 : Int) ≤ (d.row_addr : Int) - (c.row_addr : Int)
        omega
    · exact ih hsort2 hdist2 (fun x hx => hbound x (List.mem_cons_of_mem c hx)) c2 h2

/-- Claim C9: when the cells carry pairwise-distinct (row,col) addresses and
the effective column/row counts (authoritative when nonzero, else max+1)
strictly bound every address, `calculate_spans` gives every cell a col_span and
row_span of at least 1, preserving the data-model invariant that spans are
positive. -/
theorem C9_calculate_spans_positive (t : Table)
    (hdist : (t.cells.map cellKey).Pairwise (· ≠ ·))
    (hcol : ∀ c ∈ t.cells, c.col_addr < effColCount t)
    (hrow : ∀ c ∈ t.cells, c.row_addr < effRowCount t) :
    ∀ c ∈ (calculate_spans t).cells, 1 ≤ c.col_span ∧ 1 ≤ c.row_span := by
  unfold calculate_spans
  by_cases hemp : t.cells.isEmpty = true
  · rw [if_pos hemp]
    intro c hc
    rw [List.isEmpty_eq_true] at hemp
    rw [hemp] at hc
    cases hc
  · rw [if_neg hemp]
    intro c2 hc2
    have hc2b : c2 ∈ assignRowSpans (effRowCount t)
        (assignColSpans (effColCount t) (sortCells t.cells)) := hc2
    have hperm := sortCells_perm t.cells
    have hsortp : (sortCells t.cells).Pairwise cellLe := sortCells_sorted t.cells
    have hdistCells : t.cells.Pairwise (fun a b => cellKey a ≠ cellKey b) :=
      List.pairwise_map.mp hdist
    have hdistSorted : (sortCells t.cells).Pairwise (fun a b => cellKey a ≠ cellKey b) :=
      (List.Perm.pairwise_iff (fun h e => h e.symm) hperm).mpr hdistCells
    have hcolS : ∀ c ∈ sortCells t.cells, c.col_addr < effColCount t :=
      fun c hc => hcol c (hperm.mem_iff.mp hc)
    have hA : ∀ c ∈ assignColSpans (effColCount t) (sortCells t.cells), 1 ≤ c.col_span :=
      assignColSpans_pos _ _ hsortp hdistSorted hcolS
    have haddr := assignColSpans_addrs (effColCount t) (sortCells t.cells)
    have hsortKeys : ((sortCells t.cells).map cellKey).Pairwise
        (fun a b => keyLtB b a = false) := List.pairwise_map.mpr hsortp
    have hsort2 : (assignColSpans (effColCount t) (sortCells t.cells)).Pairwise cellLe := by
      have h1 : ((assignColSpans (effColCount t) (sortCells t.cells)).map cellKey).Pairwise
          (fun a b => keyLtB b a = false) := haddr ▸ hsortKeys
      exact (List.pairwise_map (f := cellKey)).mp h1
    have hdistKeys : ((sortCells t.cells).map cellKey).Pairwise (· ≠ ·) :=
      List.pairwise_map.mpr hdistSorted
    have hdist2 : (assignColSpans (effColCount t) (sortCells t.cells)).Pairwise
        (fun a b => cellKey a ≠ cellKey b) := by
      have h1 : ((assignColSpans (effColCount t) (sortCells t.cells)).map cellKey).Pairwise
          (· ≠ ·) := haddr ▸ hdistKeys
      exact (List.pairwise_map (f := cellKey)).mp h1
    have hrowS2 : ∀ c ∈ assignColSpans (effColCount t) (sortCells t.cells),
        c.row_addr < effRowCount t := by
      intro c hc
      rcases mem_assignColSpans_shape _ _ c hc with ⟨c1, hc1, hr, _, _⟩
      rw [hr]
      exact hrow c1 (hperm.mem_iff.mp hc1)
    refine ⟨?_, assignRowSpans_pos _ _ hsort2 hdist2 hrowS2 c2 hc2b⟩
    rcases mem_assignRowSpans_shape _ _ c2 hc2b with ⟨c1, hc1, _, _, hcs⟩
    rw [hcs]
    exact hA c1 hc1

/-- A 2×2 table holding the two distinct cells (0,0) and (1,0). -/
def w9Table : Table :=
  { cells := [ { text := [], col_addr := 0, row_addr := 0 },
               { text := [], col_addr := 0, row_addr := 1 } ],
    col_count := 2, row_count := 2 }

/-- Witness for C9 on `w9Table`, read off at its top-left cell (which
`calculate_spans` maps to spans 2 and 1). -/
theorem C9_calculate_spans_positive_witness :
    1 ≤ (TableCell.mk [] 2 1 0 0).col_span ∧ 1 ≤ (TableCell.mk [] 2 1 0 0).row_span :=
  C9_calculate_spans_positive w9Table (by decide) (by decide) (by decide)
    (TableCell.mk [] 2 1 0 0) (by decide)

/-! ## C10 : index discipline of the tree builder -/

def isParaElem : SectionElem → Bool
  | .para _ _ _ => true
  | .other => false

def defaultPara : Paragraph := { text := [] }

/-- The emission structure of `parse_hwpx`: the node list is a sequence of
blocks, one per emitting paragraph element, each a non-table node followed by
table nodes all carrying that paragraph's index; indices grow strictly from
block to block and stay in `[lo, hi)`. -/
inductive Blocks : Int → Int → List Paragraph → Prop where
  | nil : ∀ lo hi, lo ≤ hi → Blocks lo hi []
  | cons : ∀ (lo hi i : Int) (p : Paragraph) (ts rest : List Paragraph),
      lo ≤ i → p.is_table = false → p.hwpx_idx = i →
      (∀ x ∈ ts, x.is_table = true ∧ x.hwpx_idx = i) →
      Blocks (i + 1) hi rest →
      Blocks lo hi (p :: (ts ++ rest))

theorem Blocks.lo_le_hi {lo hi : Int} {l : List Paragraph} (h : Blocks lo hi l) : lo ≤ hi := by
  induction h with
  | nil lo hi hle => exact hle
  | cons lo hi i p ts rest hlo _ _ _ _ ih => omega

theorem Blocks.mono_lo {lo hi lo2 : Int} {l : List Paragraph} (h : Blocks lo hi l)
    (h2 : lo2 ≤ lo) : Blocks lo2 hi l := by
  cases h with
  | nil _ _ hle => exact Blocks.nil _ _ (by omega)
  | cons _ _ i p ts rest hlo hp hpi hts hrest =>
    exact Blocks.cons _ _ i p ts rest (by omega) hp hpi hts hrest

theorem Blocks.append {lo mid hi : Int} {l1 l2 : List Paragraph}
    (h1 : Blocks lo mid l1) (h2 : Blocks mid hi l2) : Blocks lo hi (l1 ++ l2) := by
  induction h1 with
  | nil _ _ hle => simpa using h2.mono_lo hle
  | cons _ _ i p ts rest hlo hp hpi hts hrest ih =>
    have : (p :: (ts ++ rest)) ++ l2 = p :: (ts ++ (rest ++ l2)) := by simp
    rw [this]
    exact Blocks.cons _ _ i p ts (rest ++ l2) hlo hp hpi hts (ih h2)

theorem Blocks.bound {lo hi : Int} {l : List Paragraph} (h : Blocks lo hi l) :
    ∀ x ∈ l, lo ≤ x.hwpx_idx ∧ x.hwpx_idx < hi := by
  induction h with
  | nil => intro x hx; cases hx
  | cons lo hi i p ts rest hlo hp hpi hts hrest ih =>
    have hihi : i + 1 ≤ hi := hrest.lo_le_hi
    intro x hx
    rcases List.mem_cons.mp hx with rfl | hx
    · rw [hpi]; omega
    · rcases List.mem_append.mp hx with hx | hx
      · rcases hts x hx with ⟨_, hxi⟩
        rw [hxi]; omega
      · rcases ih x hx with ⟨h1, h2⟩
        constructor <;> omega

/-- Every table node produced by `tableNodes` carries the containing
paragraph's index. -/
theorem tableNodes_shape (tbls : List RawTable) (idx : Nat) :
    ∀ (lt : PyStr), ∀ x ∈ (tableNodes tbls idx lt).1,
      x.is_table = true ∧ x.hwpx_idx = (idx : Int) := by
  induction tbls with
  | nil => intro lt x hx; cases hx
  | cons rt rest ih =>
    intro lt x hx
    rw [tableNodes] at hx
    by_cases hc : (parse_table rt).cells.isEmpty
    · rw [if_pos hc] at hx
      exact ih lt x hx
    · rw [if_neg hc] at hx
      simp only at hx
      rcases List.mem_cons.mp hx with rfl | hx
      · exact ⟨rfl, rfl⟩
      · exact ih _ x hx

/-- The nodes emitted for one section element: either nothing, or one
non-table node indexed by the element's position followed by table nodes with
the same index. -/
theorem elemNodes_shape (e : SectionElem) (idx : Nat) (lt : PyStr) :
    (elemNodes true e idx lt).1 = [] ∨
    ∃ p ts, (elemNodes true e idx lt).1 = p :: ts ∧ p.is_table = false ∧
      p.hwpx_idx = (idx : Int) ∧
      ∀ x ∈ ts, x.is_table = true ∧ x.hwpx_idx = (idx : Int) := by
  cases e with
  | other => exact Or.inl rfl
  | para text styleId tbls =>
    rw [elemNodes]
    by_cases h1 : (pyStrip text).isEmpty
    · rw [if_pos h1]; exact Or.inl rfl
    · rw [if_neg h1]
      by_cases h2 : 1000 < text.length
      · rw [if_pos h2]; exact Or.inl rfl
      · rw [if_neg h2]
        refine Or.inr ⟨_, _, rfl, rfl, rfl, ?_⟩
        exact tableNodes_shape tbls idx _

/-- The element loop: emitted nodes form blocks between the incoming and final
index, and every paragraph element advances the index by exactly one. -/
theorem processElems_blocks (es : List SectionElem) :
    ∀ (idx : Nat) (lt : PyStr),
      Blocks (idx : Int) (((processElems true es idx lt).2.1 : Nat) : Int)
        (processElems true es idx lt).1 ∧
      (processElems true es idx lt).2.1 = idx + es.countP isParaElem := by
  induction es with
  | nil =>
    intro idx lt
    exact ⟨Blocks.nil _ _ le_rfl, by simp [processElems]⟩
  | cons e rest ih =>
    intro idx lt
    simp only [processElems]
    cases e with
    | other =>
      have h0 : elemNodes true SectionElem.other idx lt = ([], lt) := rfl
      simp only [h0, elemIdxStep]
      rcases ih idx lt with ⟨hb, hc⟩
      refine ⟨by simpa using hb, ?_⟩
      simp only [List.countP_cons]
      simpa [isParaElem] using hc
    | para text styleId tbls =>
      simp only [elemIdxStep]
      rcases ih (idx + 1) (elemNodes true (SectionElem.para text styleId tbls) idx lt).2
        with ⟨hb, hc⟩
      have hcount : (SectionElem.para text styleId tbls :: rest).countP isParaElem =
          rest.countP isParaElem + 1 := by
        simp [List.countP_cons, isParaElem]
      rcases elemNodes_shape (SectionElem.para text styleId tbls) idx lt with hsh | hsh
      · rw [hsh]
        simp only [List.nil_append]
        refine ⟨hb.mono_lo (by omega), by omega⟩
      · rcases hsh with ⟨p, ts, heq, hp, hpi, hts⟩
        rw [heq]
        have hassoc : (p :: ts) ++ (processElems true rest (idx + 1)
            (elemNodes true (SectionElem.para text styleId tbls) idx lt).2).1 =
            p :: (ts ++ (processElems true rest (idx + 1)
              (elemNodes true (SectionElem.para text styleId tbls) idx lt).2).1) := by
          simp
        rw [hassoc]
        refine ⟨Blocks.cons _ _ (idx : Int) p ts _ le_rfl hp hpi hts ?_, by omega⟩
        have : ((idx : Int) + 1) = ((idx + 1 : Nat) : Int) := by omega
        rw [this]
        exact hb

/-- The section loop: blocks compose across sections and the final index is
the total number of paragraph elements. -/
theorem processSections_blocks (secs : List (List SectionElem)) :
    ∀ (idx : Nat),
      Blocks (idx : Int) (((processSections true secs idx).2 : Nat) : Int)
        (processSections true secs idx).1 ∧
      (processSections true secs idx).2 =
        idx + (secs.map (fun s => s.countP isParaElem)).sum := by
  induction secs with
  | nil =>
    intro idx
    exact ⟨Blocks.nil _ _ le_rfl, by simp [processSections]⟩
  | cons sec rest ih =>
    intro idx
    simp only [processSections]
    rcases processElems_blocks sec idx [] with ⟨hb1, hc1⟩
    rcases ih (processElems true sec idx []).2.1 with ⟨hb2, hc2⟩
    refine ⟨hb1.append hb2, ?_⟩
    simp only [List.map_cons, List.sum_cons]
    omega

theorem chain_le_of_block (i : Int) (rest : List Paragraph)
    (hchain : List.Chain' (fun a b => a.hwpx_idx ≤ b.hwpx_idx) rest)
    (hbound : ∀ x ∈ rest, i ≤ x.hwpx_idx) :
    ∀ (ts : List Paragraph), (∀ x ∈ ts, x.hwpx_idx = i) →
    ∀ (q : Paragraph), q.hwpx_idx = i →
    List.Chain' (fun a b => a.hwpx_idx ≤ b.hwpx_idx) (q :: (ts ++ rest)) := by
  intro ts
  induction ts with
  | nil =>
    intro _ q hq
    rw [List.nil_append]
    refine List.chain'_cons'.mpr ⟨?_, hchain⟩
    intro y hy
    rw [hq]
    exact hbound y (List.mem_of_mem_head? hy)
  | cons x ts2 ih =>
    intro hts q hq
    have hx : x.hwpx_idx = i := (hts x (List.mem_cons_self x ts2))
    refine List.chain'_cons.mpr ⟨by rw [hq, hx], ?_⟩
    exact ih (fun y hy => hts y (List.mem_cons_of_mem x hy)) x hx

theorem Blocks.chain_le {lo hi : Int} {l : List Paragraph} (h : Blocks lo hi l) :
    List.Chain' (fun a b => a.hwpx_idx ≤ b.hwpx_idx) l := by
  induction h with
  | nil => exact List.chain'_nil
  | cons lo hi i p ts rest hlo hp hpi hts hrest ih =>
    refine chain_le_of_block i rest ih ?_ ts (fun x hx => (hts x hx).2) p hpi
    intro x hx
    have := hrest.bound x hx
    omega

theorem Blocks.chain_lt_nontables {lo hi : Int} {l : List Paragraph} (h : Blocks lo hi l) :
    List.Chain' (fun a b => a.hwpx_idx < b.hwpx_idx)
      (l.filter (fun x => !x.is_table)) := by
  induction h with
  | nil => simp
  | cons lo hi i p ts rest hlo hp hpi hts hrest ih =>
    have hts0 : ts.filter (fun x => !x.is_table) = [] := by
      refine List.filter_eq_nil_iff.mpr ?_
      intro x hx
      simp [(hts x hx).1]
    have hfil : (p :: (ts ++ rest)).filter (fun x => !x.is_table) =
        p :: rest.filter (fun x => !x.is_table) := by
      rw [List.filter_cons, List.filter_append, hts0]
      simp [hp]
    rw [hfil]
    refine List.chain'_cons'.mpr ⟨?_, ih⟩
    intro y hy
    have hym : y ∈ rest := List.mem_of_mem_filter (List.mem_of_mem_head? hy)
    have := hrest.bound y hym
    rw [hpi]
    omega

theorem Blocks.table_has_para {lo hi : Int} {l : List Paragraph} (h : Blocks lo hi l) :
    ∀ n, n < l.length → (l.getD n defaultPara).is_table = true →
      ∃ j, j < n ∧ (l.getD j defaultPara).is_table = false ∧
        (l.getD j defaultPara).hwpx_idx = (l.getD n defaultPara).hwpx_idx := by
  induction h with
  | nil => intro n hn; simp at hn
  | cons lo hi i p ts rest hlo hp hpi hts hrest ih =>
    intro n hn htab
    match n, hn with
    | 0, _ =>
      rw [List.getD_cons_zero] at htab
      rw [hp] at htab
      cases htab
    | (m + 1), hn =>
      rw [List.getD_cons_succ] at htab
      rcases Nat.lt_or_ge m ts.length with hm | hm
      · -- the table node sits in this block: its paragraph node is at j = 0
        refine ⟨0, Nat.succ_pos m, ?_, ?_⟩
        · rw [List.getD_cons_zero]; exact hp
        · rw [List.getD_cons_zero, List.getD_cons_succ, List.getD_append _ _ _ m hm]
          have hmem : ts.getD m defaultPara ∈ ts := by
            rw [List.getD_eq_getElem ts defaultPara hm]
            exact List.getElem_mem hm
          rw [hpi, (hts _ hmem).2]
      · -- the table node is in a later block
        rw [List.getD_append_right _ _ _ m hm] at htab
        have hlen : m - ts.length < rest.length := by
          rw [List.length_cons, List.length_append] at hn
          omega
        rcases ih (m - ts.length) hlen htab with ⟨j, hj, hjn, hje⟩
        refine ⟨j + 1 + ts.length, by omega, ?_, ?_⟩
        · have : j + 1 + ts.length = (j + ts.length) + 1 := by omega
          rw [this, List.getD_cons_succ,
            List.getD_append_right _ _ _ (j + ts.length) (by omega)]
          have hj2 : j + ts.length - ts.length = j := by omega
          rw [hj2]
          exact hjn
        · have : j + 1 + ts.length = (j + ts.length) + 1 := by omega
          rw [this, List.getD_cons_succ,
            List.getD_append_right _ _ _ (j + ts.length) (by omega),
            List.getD_cons_succ, List.getD_append_right _ _ _ m hm]
          have hj2 : j + ts.length - ts.length = j := by omega
          rw [hj2]
          exact hje

/-- Claim C10: in `parse_hwpx` every top-level paragraph element consumes
exactly one index (the final index equals the number of paragraph elements
across sections, whether or not nodes were emitted), emitted `hwpx_idx` values
are non-decreasing in emission order, strictly increasing over the non-table
nodes, and every table node is preceded by a non-table node carrying the same
`hwpx_idx` (its containing paragraph's node). -/
theorem C10_parse_hwpx_index_discipline (sections : List (List SectionElem)) :
    List.Chain' (fun a b => a.hwpx_idx ≤ b.hwpx_idx) (parse_hwpx sections) ∧
    List.Chain' (fun a b => a.hwpx_idx < b.hwpx_idx)
      ((parse_hwpx sections).filter (fun x => !x.is_table)) ∧
    (∀ n, n < (parse_hwpx sections).length →
      ((parse_hwpx sections).getD n defaultPara).is_table = true →
      ∃ j, j < n ∧ ((parse_hwpx sections).getD j defaultPara).is_table = false ∧
        ((parse_hwpx sections).getD j defaultPara).hwpx_idx =
          ((parse_hwpx sections).getD n defaultPara).hwpx_idx) ∧
    (processSections true sections 0).2 =
      (sections.map (fun s => s.countP isParaElem)).sum := by
  rcases processSections_blocks sections 0 with ⟨hb, hc⟩
  exact ⟨hb.chain_le, hb.chain_lt_nontables, hb.table_has_para, by simpa using hc⟩

/-- A one-section stream: one paragraph carrying one one-cell table. -/
def wSections : List (List SectionElem) :=
  [[SectionElem.para "t".toList 0
    [{ rowCnt := 1, colCnt := 1, rawCells := [{ rowAddr := 0, colAddr := 0, texts := [['a']] }] }]]]

set_option maxRecDepth 8192 in
/-- Witness for C10: on `wSections` the table node at position 1 is preceded by
its paragraph node with the same index. -/
theorem C10_witness :
    ∃ j, j < 1 ∧ ((parse_hwpx wSections).getD j defaultPara).is_table = false ∧
      ((parse_hwpx wSections).getD j defaultPara).hwpx_idx =
        ((parse_hwpx wSections).getD 1 defaultPara).hwpx_idx :=
  (C10_parse_hwpx_index_discipline wSections).2.2.1 1 (by decide) (by decide)

/-! ## C1 : frame property of the binary patcher -/

theorem byteAt_append_lt (l l2 : List Nat) (i : Nat) (h : i < l.length) :
    byteAt (l ++ l2) i = byteAt l i := by
  simp [byteAt, List.getD_eq_getElem?_getD, List.getElem?_append, h]

theorem byteAt_append_ge (l l2 : List Nat) (i : Nat) (h : l.length ≤ i) :
    byteAt (l ++ l2) i = byteAt l2 (i - l.length) := by
  simp [byteAt, List.getD_eq_getElem?_getD, List.getElem?_append_right h]

theorem byteAt_drop (l : List Nat) (nn k : Nat) :
    byteAt (l.drop nn) k = byteAt l (nn + k) := by
  simp [byteAt, List.getD_eq_getElem?_getD, List.getElem?_drop]

theorem byteAt_take (l : List Nat) (nn k : Nat) (h : k < nn) :
    byteAt (l.take nn) k = byteAt l k := by
  simp [byteAt, List.getD_eq_getElem?_getD, List.getElem?_take, h]

theorem byteAt_set_ne (l : List Nat) (i j v : Nat) (h : i ≠ j) :
    byteAt (l.set i v) j = byteAt l j := by
  simp [byteAt, List.getD_eq_getElem?_getD, List.getElem?_set_ne h]

theorem byteAt_writeU32_outside (l : List Nat) (p v j : Nat) (h : j < p ∨ p + 4 ≤ j) :
    byteAt (writeU32 l p v) j = byteAt l j := by
  unfold writeU32
  rw [byteAt_set_ne _ _ _ _ (by omega), byteAt_set_ne _ _ _ _ (by omega),
    byteAt_set_ne _ _ _ _ (by omega), byteAt_set_ne _ _ _ _ (by omega)]

theorem writeU32_length (l : List Nat) (p v : Nat) : (writeU32 l p v).length = l.length := by
  simp [writeU32]

theorem patchCDLoop_length (newCdOff cdOff dataEnd : Nat)
    (nc ncs nus : Nat) (delta : Int) (cdEntries : List CDEntry) (r : List Nat) :
    (patchCDLoop newCdOff cdOff dataEnd nc ncs nus delta cdEntries r).length = r.length := by
  induction cdEntries generalizing r with
  | nil => rfl
  | cons ce rest ih =>
    rw [patchCDLoop]
    rw [ih]
    by_cases h1 : ce.name = targetName
    · rw [if_pos h1, writeU32_length, writeU32_length, writeU32_length]
    · by_cases h2 : dataEnd ≤ ce.local_off
      · rw [if_neg h1, if_pos h2, writeU32_length]
      · rw [if_neg h1, if_neg h2]

theorem patchCDLoop_byteAt (newCdOff cdOff dataEnd : Nat)
    (nc ncs nus : Nat) (delta : Int) (cdEntries : List CDEntry) (r : List Nat) (pos : Nat)
    (h : ∀ ce ∈ cdEntries,
      (ce.name = targetName →
        pos < newCdOff + (ce.cd_off - cdOff) + 16 ∨ newCdOff + (ce.cd_off - cdOff) + 28 ≤ pos) ∧
      (ce.name ≠ targetName → dataEnd ≤ ce.local_off →
        pos < newCdOff + (ce.cd_off - cdOff) + 42 ∨ newCdOff + (ce.cd_off - cdOff) + 46 ≤ pos)) :
    byteAt (patchCDLoop newCdOff cdOff dataEnd nc ncs nus delta cdEntries r) pos = byteAt r pos := by
  induction cdEntries generalizing r with
  | nil => rfl
  | cons ce rest ih =>
    rw [patchCDLoop]
    rcases h ce (List.mem_cons_self ce rest) with ⟨ht, hnt⟩
    have hrest : ∀ ce2 ∈ rest,
        (ce2.name = targetName →
          pos < newCdOff + (ce2.cd_off - cdOff) + 16 ∨
            newCdOff + (ce2.cd_off - cdOff) + 28 ≤ pos) ∧
        (ce2.name ≠ targetName → dataEnd ≤ ce2.local_off →
          pos < newCdOff + (ce2.cd_off - cdOff) + 42 ∨
            newCdOff + (ce2.cd_off - cdOff) + 46 ≤ pos) :=
      fun ce2 hm => h ce2 (List.mem_cons_of_mem ce hm)
    rw [ih _ hrest]
    by_cases h1 : ce.name = targetName
    · rw [if_pos h1]
      rcases ht h1 with hlt | hge
      · rw [byteAt_writeU32_outside _ _ _ _ (Or.inl (by omega)),
          byteAt_writeU32_outside _ _ _ _ (Or.inl (by omega)),
          byteAt_writeU32_outside _ _ _ _ (Or.inl (by omega))]
      · rw [byteAt_writeU32_outside _ _ _ _ (Or.inr (by omega)),
          byteAt_writeU32_outside _ _ _ _ (Or.inr (by omega)),
          byteAt_writeU32_outside _ _ _ _ (Or.inr (by omega))]
    · by_cases h2 : dataEnd ≤ ce.local_off
      · rw [if_neg h1, if_pos h2]
        rcases hnt h1 h2 with hlt | hge
        · rw [byteAt_writeU32_outside _ _ _ _ (Or.inl (by omega))]
        · rw [byteAt_writeU32_outside _ _ _ _ (Or.inr (by omega))]
      · rw [if_neg h1, if_neg h2]

theorem parseCDEntries_cd_off_ge (data : List Nat) :
    ∀ (nn off : Nat), ∀ e ∈ parseCDEntries data off nn, off ≤ e.cd_off := by
  intro nn
  induction nn with
  | zero => intro off e he; cases he
  | succ k ih =>
    intro off e he
    rw [parseCDEntries] at he
    rcases List.mem_cons.mp he with rfl | he
    · exact le_rfl
    · have := ih _ e he
      omega

/-- `data_start` of the target entry: local header offset + fixed 30-byte
header + name and extra field lengths read from the local header. -/
def dataStartOf (data : List Nat) (tgt : CDEntry) : Nat :=
  tgt.local_off + 30 + readU16 data (tgt.local_off + 26) + readU16 data (tgt.local_off + 28)

def dataEndOf (data : List Nat) (tgt : CDEntry) : Nat :=
  dataStartOf data tgt + tgt.comp_size

/-- Where byte `j` of the input lands in the output: bytes before the replaced
payload stay in place, bytes from `data_end` on shift by the size delta. -/
def shiftIdx (ds de ncs j : Nat) : Nat :=
  if j < de then j else ds + ncs + (j - de)

/-- The byte positions of the input that `patch_hwpx_binary` is allowed to
change: the target's compressed payload, the CRC/size fields of its local
header and central-directory record, the local-header-offset field of every
other record whose entry lies at or after `data_end`, and the
central-directory-offset field of the end-of-directory record. -/
def C1Modified (data : List Nat) (entries : List CDEntry) (tgt : CDEntry)
    (eocdOff : Nat) (j : Nat) : Prop :=
  (dataStartOf data tgt ≤ j ∧ j < dataEndOf data tgt) ∨
  (tgt.local_off + 14 ≤ j ∧ j < tgt.local_off + 26) ∨
  (tgt.cd_off + 16 ≤ j ∧ j < tgt.cd_off + 28) ∨
  (∃ ce ∈ entries, ce.name ≠ targetName ∧ dataEndOf data tgt ≤ ce.local_off ∧
    ce.cd_off + 42 ≤ j ∧ j < ce.cd_off + 46) ∨
  (eocdOff + 16 ≤ j ∧ j < eocdOff + 20)

set_option maxHeartbeats 2000000 in
theorem patch_body_frame
    (data newCompressed : List Nat) (entries : List CDEntry) (tgt : CDEntry)
    (cdOff eocdOff ds de ncs newCdOff newEocdOff : Nat) (nc nus : Nat) (delta : Int)
    (part1 part3 part4 part5 result0 : List Nat)
    (hds : ds = dataStartOf data tgt)
    (hdee : de = dataEndOf data tgt)
    (hncs : ncs = newCompressed.length)
    (hp1 : part1 = data.take ds)
    (hp3 : part3 = pySlice data de cdOff)
    (hp4 : part4 = pySlice data cdOff eocdOff)
    (hp5 : part5 = data.drop eocdOff)
    (hnco : newCdOff = (part1 ++ newCompressed ++ part3).length)
    (hneo : newEocdOff = (part1 ++ newCompressed ++ part3 ++ part4).length)
    (hr0 : result0 = part1 ++ newCompressed ++ part3 ++ part4 ++ part5)
    (hde2 : de ≤ cdOff) (hce : cdOff ≤ eocdOff) (hel : eocdOff ≤ data.length)
    (hcdge : ∀ ce ∈ entries, cdOff ≤ ce.cd_off)
    (huniq : ∀ ce ∈ entries, ce.name = targetName → ce = tgt) :
    (writeU32 (patchCDLoop newCdOff cdOff de nc ncs nus delta entries
        (writeU32 (writeU32 (writeU32 result0 (tgt.local_off + 14) nc)
          (tgt.local_off + 18) ncs) (tgt.local_off + 22) nus))
      (newEocdOff + 16) newCdOff).length = ds + ncs + (data.length - de) ∧
    ∀ j, j < data.length → ¬ C1Modified data entries tgt eocdOff j →
      byteAt (writeU32 (patchCDLoop newCdOff cdOff de nc ncs nus delta entries
          (writeU32 (writeU32 (writeU32 result0 (tgt.local_off + 14) nc)
            (tgt.local_off + 18) ncs) (tgt.local_off + 22) nus))
        (newEocdOff + 16) newCdOff) (shiftIdx ds de ncs j) = byteAt data j := by
  have hdse : de = ds + tgt.comp_size := by rw [hds, hdee]; rfl
  have h1 : part1.length = ds := by rw [hp1, List.length_take]; omega
  have h3 : part3.length = cdOff - de := by
    rw [hp3]; unfold pySlice
    rw [List.length_drop, List.length_take]; omega
  have h4 : part4.length = eocdOff - cdOff := by
    rw [hp4]; unfold pySlice
    rw [List.length_drop, List.length_take]; omega
  have h5 : part5.length = data.length - eocdOff := by rw [hp5, List.length_drop]
  have hncoe : newCdOff = ds + ncs + (cdOff - de) := by
    rw [hnco, List.length_append, List.length_append]; omega
  have hneoe : newEocdOff = ds + ncs + (cdOff - de) + (eocdOff - cdOff) := by
    rw [hneo, List.length_append, List.length_append, List.length_append]; omega
  have hr0len : result0.length = ds + ncs + (data.length - de) := by
    rw [hr0, List.length_append, List.length_append, List.length_append,
      List.length_append]
    omega
  constructor
  · rw [writeU32_length, patchCDLoop_length, writeU32_length, writeU32_length,
      writeU32_length]
    exact hr0len
  intro j hj hnm
  have hds30 : tgt.local_off + 30 ≤ ds := by rw [hds]; unfold dataStartOf; omega
  have hnmA : ¬(ds ≤ j ∧ j < de) :=
    fun hh => hnm (Or.inl ⟨by omega, by omega⟩)
  have hnmB : ¬(tgt.local_off + 14 ≤ j ∧ j < tgt.local_off + 26) :=
    fun hh => hnm (Or.inr (Or.inl hh))
  have hnmC : ¬(tgt.cd_off + 16 ≤ j ∧ j < tgt.cd_off + 28) :=
    fun hh => hnm (Or.inr (Or.inr (Or.inl hh)))
  have hnmD : ∀ ce ∈ entries, ce.name ≠ targetName → de ≤ ce.local_off →
      ¬(ce.cd_off + 42 ≤ j ∧ j < ce.cd_off + 46) :=
    fun ce hce hn hl hh =>
      hnm (Or.inr (Or.inr (Or.inr (Or.inl ⟨ce, hce, hn, by omega, hh.1, hh.2⟩))))
  have hnmE : ¬(eocdOff + 16 ≤ j ∧ j < eocdOff + 20) :=
    fun hh => hnm (Or.inr (Or.inr (Or.inr (Or.inr hh))))
  set S := shiftIdx ds de ncs j with hSdef
  have hsval : (j < ds ∧ S = j) ∨ (de ≤ j ∧ S = ds + ncs + (j - de)) := by
    rcases Nat.lt_or_ge j ds with h | h
    · exact Or.inl ⟨h, by rw [hSdef]; unfold shiftIdx; rw [if_pos (by omega)]⟩
    · have hdej : de ≤ j := by
        rcases Nat.lt_or_ge j de with h2 | h2
        · exact absurd ⟨h, h2⟩ hnmA
        · exact h2
      refine Or.inr ⟨hdej, ?_⟩
      rw [hSdef]; unfold shiftIdx; rw [if_neg (by omega)]
  have hA2 : (part1 ++ newCompressed).length = ds + ncs := by
    rw [List.length_append]; omega
  have hA3 : (part1 ++ newCompressed ++ part3).length = ds + ncs + (cdOff - de) := by
    rw [List.length_append]; omega
  have hA4 : (part1 ++ newCompressed ++ part3 ++ part4).length =
      ds + ncs + (cdOff - de) + (eocdOff - cdOff) := by
    rw [List.length_append]; omega
  have hres0 : byteAt result0 S = byteAt data j := by
    rcases hsval with ⟨hjds, hSe⟩ | ⟨hjde, hSe⟩
    · rw [hSe, hr0]
      rw [byteAt_append_lt _ _ _ (by omega)]
      rw [byteAt_append_lt _ _ _ (by omega)]
      rw [byteAt_append_lt _ _ _ (by omega)]
      rw [byteAt_append_lt _ _ _ (by omega)]
      rw [hp1, byteAt_take _ _ _ hjds]
    · rw [hSe, hr0]
      rcases Nat.lt_or_ge j cdOff with hjc | hjc
      · rw [byteAt_append_lt _ _ _ (by omega)]
        rw [byteAt_append_lt _ _ _ (by omega)]
        rw [byteAt_append_ge _ _ _ (by omega)]
        have e2 : ds + ncs + (j - de) - (part1 ++ newCompressed).length = j - de := by omega
        rw [e2]
        rw [hp3]; unfold pySlice
        rw [byteAt_drop]
        have e3 : de + (j - de) = j := by omega
        rw [e3, byteAt_take _ _ _ (by omega)]
      · rcases Nat.lt_or_ge j eocdOff with hje | hje
        · rw [byteAt_append_lt _ _ _ (by omega)]
          rw [byteAt_append_ge _ _ _ (by omega)]
          have e4 : ds + ncs + (j - de) - (part1 ++ newCompressed ++ part3).length =
              j - cdOff := by omega
          rw [e4]
          rw [hp4]; unfold pySlice
          rw [byteAt_drop]
          have e5 : cdOff + (j - cdOff) = j := by omega
          rw [e5, byteAt_take _ _ _ (by omega)]
        · rw [byteAt_append_ge _ _ _ (by omega)]
          have e6 : ds + ncs + (j - de) - (part1 ++ newCompressed ++ part3 ++ part4).length =
              j - eocdOff := by omega
          rw [e6]
          rw [hp5, byteAt_drop]
          have e7 : eocdOff + (j - eocdOff) = j := by omega
          rw [e7]
  have hloop : ∀ ce ∈ entries,
      (ce.name = targetName →
        S < newCdOff + (ce.cd_off - cdOff) + 16 ∨ newCdOff + (ce.cd_off - cdOff) + 28 ≤ S) ∧
      (ce.name ≠ targetName → de ≤ ce.local_off →
        S < newCdOff + (ce.cd_off - cdOff) + 42 ∨ newCdOff + (ce.cd_off - cdOff) + 46 ≤ S) := by
    intro ce hce
    have hcd := hcdge ce hce
    constructor
    · intro hname
      have hcet : ce = tgt := huniq ce hce hname
      have hcdt : tgt.cd_off = ce.cd_off := by rw [hcet]
      omega
    · intro hname hloc
      have hno := hnmD ce hce hname hloc
      omega
  rw [byteAt_writeU32_outside _ _ _ _ (by omega)]
  rw [patchCDLoop_byteAt newCdOff cdOff de nc ncs nus delta entries _ S hloop]
  rw [byteAt_writeU32_outside _ _ _ _ (by omega)]
  rw [byteAt_writeU32_outside _ _ _ _ (by omega)]
  rw [byteAt_writeU32_outside _ _ _ _ (by omega)]
  exact hres0

/-- Claim C1: on a well-formed container (payload region before the central
directory, directory before the end-of-directory record inside the data, and
exactly one record named `Contents/section0.xml`), `patch_hwpx_binary`
succeeds, the output length changes by the compressed-size delta, and every
input byte outside the allowed positions of `C1Modified` reappears unchanged
at its shifted position — i.e. the patch touches only the replaced payload,
the target's local-header and directory CRC/size fields, the local-header
offsets of entries lying after the payload, and the end-of-directory's
central-directory offset. -/
theorem C1_patch_hwpx_binary_frame (compress : List Nat → List Nat) (crc : List Nat → Nat)
    (data payload : List Nat) (entries : List CDEntry) (cdOff eocdOff n : Nat) (tgt : CDEntry)
    (hparse : parse_zip_structure data = some (entries, cdOff, eocdOff, n))
    (htgt : entries.find? (fun ce => ce.name = targetName) = some tgt)
    (huniq : ∀ ce ∈ entries, ce.name = targetName → ce = tgt)
    (hde : dataEndOf data tgt ≤ cdOff) (hce : cdOff ≤ eocdOff) (hel : eocdOff ≤ data.length) :
    ∃ res, patch_hwpx_binary compress crc data payload = some res ∧
      res.length = dataStartOf data tgt + (compress payload).length +
        (data.length - dataEndOf data tgt) ∧
      ∀ j, j < data.length → ¬ C1Modified data entries tgt eocdOff j →
        byteAt res (shiftIdx (dataStartOf data tgt) (dataEndOf data tgt)
          (compress payload).length j) = byteAt data j := by
  have hcdge : ∀ ce ∈ entries, cdOff ≤ ce.cd_off := by
    have hp2 := hparse
    rw [parse_zip_structure] at hp2
    cases hfs : findLastSig data with
    | none => rw [hfs] at hp2; cases hp2
    | some e0 =>
      rw [hfs] at hp2
      simp only [Option.some.injEq, Prod.mk.injEq] at hp2
      obtain ⟨he, hc, he0, hn⟩ := hp2
      intro ce hce2
      have := parseCDEntries_cd_off_ge data (readU16 data (e0 + 10))
        (readU32 data (e0 + 16)) ce (by rw [he]; exact hce2)
      omega
  obtain ⟨hlen, hframe⟩ := patch_body_frame data (compress payload) entries tgt cdOff eocdOff
    (dataStartOf data tgt) (dataEndOf data tgt) (compress payload).length
    ((data.take (dataStartOf data tgt) ++ compress payload ++
      pySlice data (dataEndOf data tgt) cdOff).length)
    ((data.take (dataStartOf data tgt) ++ compress payload ++
      pySlice data (dataEndOf data tgt) cdOff ++ pySlice data cdOff eocdOff).length)
    (crc payload % 4294967296) payload.length
    (((compress payload).length : Int) - (tgt.comp_size : Int))
    (data.take (dataStartOf data tgt)) (pySlice data (dataEndOf data tgt) cdOff)
    (pySlice data cdOff eocdOff) (data.drop eocdOff)
    (data.take (dataStartOf data tgt) ++ compress payload ++
      pySlice data (dataEndOf data tgt) cdOff ++ pySlice data cdOff eocdOff ++
      data.drop eocdOff)
    rfl rfl rfl rfl rfl rfl rfl rfl rfl rfl hde hce hel hcdge huniq
  refine ⟨_, ?_, hlen, hframe⟩
  simp only [patch_hwpx_binary, hparse, htgt]
  rfl

/-- The single central-directory record of `wContainer` as the parser reads it. -/
def wEntry : CDEntry :=
  { cd_off := 55, cd_size := 67, name := targetName, crc32 := 0,
    comp_size := 4, uncomp_size := 4, local_off := 0 }

set_option maxRecDepth 16384 in
/-- Witness for C1 on the concrete 144-byte container `wContainer`. -/
theorem C1_patch_frame_witness :
    ∃ res, patch_hwpx_binary (fun l => l ++ l) (fun _ => 7) wContainer [9, 9, 9] = some res ∧
      res.length = dataStartOf wContainer wEntry +
        ((fun l => l ++ l) [9, 9, 9] : List Nat).length +
        (wContainer.length - dataEndOf wContainer wEntry) ∧
      ∀ j, j < wContainer.length → ¬ C1Modified wContainer [wEntry] wEntry 122 j →
        byteAt res (shiftIdx (dataStartOf wContainer wEntry) (dataEndOf wContainer wEntry)
          ((fun l => l ++ l) [9, 9, 9] : List Nat).length j) = byteAt wContainer j :=
  C1_patch_hwpx_binary_frame (fun l => l ++ l) (fun _ => 7) wContainer [9, 9, 9]
    [wEntry] 55 122 1 wEntry (by decide) (by decide) (by decide) (by decide)
    (by decide) (by decide)
